import Mathlib

/-!
Shallow embedding of the magneto 2D-Ising Monte Carlo core (`magneto_lib`):
the exponential cache, the Metropolis and Swendsen-Wang sweep engines, the
statistical aggregation, and the job dispatch. C++ `double` values are
modelled as `ℚ`; the C library exponential is passed as an explicit function
parameter `E`. Lattices are lists of rows, mirroring
`std::vector<std::vector<T>>` in the source. Random buffers are modelled as
functions from the draw index to the drawn value.
-/

namespace Magneto

/-- Source `LatticeType`: a square 2D container of spins. -/
abbrev Lattice := List (List Int)

/-- Read of `lattice[i][j]` (the algorithms only produce in-range indices). -/
def latGet (lat : Lattice) (i j : Nat) : Int :=
  (lat.getD i []).getD j 0

/-- Write of `lattice[i][j] *= -1` in the source. -/
def flipAt (lat : Lattice) (i j : Nat) : Lattice :=
  lat.set i ((lat.getD i []).set j (-(latGet lat i j)))

/-- Pointwise update of a two-argument function (a write to one cell of a 2D
array). -/
def upd2 {α : Type} (g : Nat → Nat → α) (i j : Nat) (v : α) : Nat → Nat → α :=
  fun a b => if a = i ∧ b = j then v else g a b

/-- Increment a two-argument counter at one cell; ghost instrumentation used
to count discovery and negation events per site. -/
def bump2 (g : Nat → Nat → Nat) (i j : Nat) : Nat → Nat → Nat :=
  fun a b => if a = i ∧ b = j then g a b + 1 else g a b

/-- Source `get_exp_buffer_offset` (LatticeAlgorithms.cpp:11-14). -/
def get_exp_buffer_offset (J : Int) : Int :=
  if J > 0 then 8 * J else -8 * J

/-- Source `get_cached_exp_values` (LatticeAlgorithms.cpp:89-98): the loop pushes
`exp(-(dE - buffer_offset) / T)` for `dE = 0, …, value_count - 1` with
`value_count = 8J - (-8J) + 1`; a non-positive `value_count` yields an empty
vector. `E` stands for the library `exp` on doubles. -/
def get_cached_exp_values (E : ℚ → ℚ) (J : Int) (T : ℚ) : List ℚ :=
  let min_value : Int := -8 * J
  let max_value : Int := 8 * J
  let value_count : Int := max_value - min_value + 1
  let buffer_offset : Int := get_exp_buffer_offset J
  (List.range value_count.toNat).map
    (fun (dE : Nat) => E (((-((dE : Int) - buffer_offset) : Int) : ℚ) / T))

/-- One iteration of the proposal loop of `Metropolis::run`
(LatticeAlgorithms.cpp:76-82). `gdE` is `get_dE` (declared IsingSystem.h:46),
`idx` the coordinate-pair buffer, `u` the uniform-real buffer, `table` the
cached exp values `m_cached_exp_values`. -/
def metStep (J : Int) (gdE : Lattice → Nat → Nat → Int) (table : List ℚ)
    (idx : Nat → Nat × Nat) (u : Nat → ℚ) (lat : Lattice) (i : Nat) : Lattice :=
  let flip_i := (idx i).1
  let flip_j := (idx i).2
  let dE := J * gdE lat flip_i flip_j
  if dE ≤ 0 ∨ u i < table.getD (dE + get_exp_buffer_offset J).toNat 0 then
    flipAt lat flip_i flip_j
  else
    lat

/-- Source `Metropolis::run` (LatticeAlgorithms.cpp:69-86): `n` proposals (the
buffer size, `L*L` as constructed) applied in order. -/
def Metropolis.run (J : Int) (gdE : Lattice → Nat → Nat → Int) (table : List ℚ)
    (idx : Nat → Nat × Nat) (u : Nat → ℚ) (n : Nat) (lat : Lattice) : Lattice :=
  (List.range n).foldl (metStep J gdE table idx u) lat

/-- Source `get_mean` (magneto.cpp:39-43): `std::accumulate` from a
default-initialized value, then division by the size. -/
def get_mean (values : List ℚ) : ℚ :=
  values.foldl (fun a b => a + b) 0 / (values.length : ℚ)

/-- Source `get_squared_mean` (magneto.cpp:46-53). -/
def get_squared_mean (values : List ℚ) : ℚ :=
  values.foldl (fun init elem => init + elem * elem) 0 / (values.length : ℚ)

/-- Source `get_variance` (magneto.cpp:56-59). -/
def get_variance (values : List ℚ) : ℚ :=
  get_squared_mean values - get_mean values * get_mean values

/-- Source `PhysicalMeasurement` (IsingSystem.h:29-32): normalized per-snapshot
energy and magnetization. -/
structure PhysicalMeasurement where
  energy : ℚ
  magnetization : ℚ
deriving DecidableEq

/-- Source `get_energies` (magneto.cpp:62-68). -/
def get_energies (properties : List PhysicalMeasurement) : List ℚ :=
  properties.map (fun p => p.energy)

/-- Source `get_mags` (magneto.cpp:71-77). -/
def get_mags (properties : List PhysicalMeasurement) : List ℚ :=
  properties.map (fun p => p.magnetization)

/-- Source `get_energy_variance` (magneto.cpp:80-82). -/
def get_energy_variance (properties : List PhysicalMeasurement) : ℚ :=
  get_variance (get_energies properties)

/-- Source `get_mag_variance` (magneto.cpp:84-86). -/
def get_mag_variance (properties : List PhysicalMeasurement) : ℚ :=
  get_variance (get_mags properties)

/-- Modelled from the spec: elementwise addition on `PhysicalMeasurement`
(`operator+`, declared IsingSystem.h:41; its definition is not among the
provided sources). "Supports elementwise addition and scalar division (used
for averaging)". -/
def measAdd (a b : PhysicalMeasurement) : PhysicalMeasurement :=
  ⟨a.energy + b.energy, a.magnetization + b.magnetization⟩

/-- Modelled from the spec: scalar division on `PhysicalMeasurement`
(`operator/`, declared IsingSystem.h:42). -/
def measDiv (a : PhysicalMeasurement) (d : Nat) : PhysicalMeasurement :=
  ⟨a.energy / (d : ℚ), a.magnetization / (d : ℚ)⟩

/-- The template `get_mean` instantiated at `PhysicalMeasurement`
(magneto.cpp:115). -/
def get_mean_meas (values : List PhysicalMeasurement) : PhysicalMeasurement :=
  measDiv (values.foldl measAdd ⟨0, 0⟩) values.length

/-- Source `PhysicsResult` (magneto.cpp:30-36). -/
structure PhysicsResult where
  temp : ℚ
  energy : ℚ
  cv : ℚ
  magnetization : ℚ
  chi : ℚ
deriving DecidableEq

/-- The "compute results" tail of `get_physical_results`
(magneto.cpp:114-121), taking the accumulated per-snapshot measurements as
input (the simulation loop produced them). -/
def get_physical_results (T : ℚ) (L : Nat) (properties : List PhysicalMeasurement) :
    PhysicsResult :=
  let mean_properties := get_mean_meas properties
  let e_mean := mean_properties.energy
  let m_mean := mean_properties.magnetization
  let cv := get_energy_variance properties * (L : ℚ) * (L : ℚ) / (T * T)
  let chi := get_mag_variance properties * (L : ℚ) * (L : ℚ) / T
  ⟨T, e_mean, cv, m_mean, chi⟩

/-- The algorithm field of the job descriptor (tested magneto.cpp:227). -/
inductive Algorithm where
  | Metropolis
  | SW
deriving DecidableEq

/-- The image-or-movie mode flag (tested magneto.cpp:219-221). -/
inductive ImageOrMovie where
  | Movie
  | Intervals
deriving DecidableEq

/-- The two lattice engines that `run_job` can instantiate. -/
inductive Engine where
  | Metropolis
  | SW
deriving DecidableEq

/-- The two visualization writers. -/
inductive Writer where
  | MovieWriter
  | IntervalWriter
deriving DecidableEq

/-- Source `run_job<TAlg>` (magneto.cpp:217-223): dispatch on the image mode. The
source instantiates the inner `run_job` with `magneto::Metropolis` in both
branches rather than with the template parameter `TAlg`. -/
def run_job_alg (TAlg : Engine) (mode : ImageOrMovie) : Engine × Writer :=
  match TAlg, mode with
  | _, ImageOrMovie.Movie => (Engine.Metropolis, Writer.MovieWriter)
  | _, ImageOrMovie.Intervals => (Engine.Metropolis, Writer.IntervalWriter)

/-- Source `run_job` (magneto.cpp:226-231): pick the engine template argument from
the job's algorithm field, then hand over to the image-mode dispatch. The
resulting pair is the (engine, writer) used by the measurement iterations of
`get_physical_results` (magneto.cpp:104-111). -/
def run_job_select (alg : Algorithm) (mode : ImageOrMovie) : Engine × Writer :=
  match alg with
  | Algorithm.Metropolis => run_job_alg Engine.Metropolis mode
  | Algorithm.SW => run_job_alg Engine.SW mode

/-- The engine the job's algorithm field asks for. -/
def selected_engine (alg : Algorithm) : Engine :=
  match alg with
  | Algorithm.Metropolis => Engine.Metropolis
  | Algorithm.SW => Engine.SW

/-- Source `freezeProbability` (LatticeAlgorithms.cpp:111):
`1.0 - exp(-2.0f * m_J / m_T)`. -/
def swFreezeProbability (E : ℚ → ℚ) (J : Int) (T : ℚ) : ℚ :=
  1 - E ((-2 : ℚ) * (J : ℚ) / T)

/-- State of the bond-filling double loop of `SW::run`: the two bond grids
`doesBondNorth` / `doesBondEast` and the running `counter`. -/
structure BondState where
  bn : Nat → Nat → Bool
  be : Nat → Nat → Bool
  counter : Nat

/-- Body of the inner bond-fill loop (LatticeAlgorithms.cpp:127-129). -/
def fillCell (p : ℚ) (bufN bufE : Nat → ℚ) (i : Nat) (st : BondState) (j : Nat) :
    BondState :=
  { bn := upd2 st.bn i j (decide (bufN st.counter < p))
  , be := upd2 st.be i j (decide (bufE st.counter < p))
  , counter := st.counter + 1 }

/-- One row of the bond-fill double loop (LatticeAlgorithms.cpp:126-130). -/
def fillRow (p : ℚ) (bufN bufE : Nat → ℚ) (L : Nat) (st : BondState) (i : Nat) :
    BondState :=
  (List.range L).foldl (fillCell p bufN bufE i) st

/-- The bond-fill double loop of `SW::run` (LatticeAlgorithms.cpp:124-131),
starting from all-false grids and counter 0. -/
def fillBonds (p : ℚ) (bufN bufE : Nat → ℚ) (L : Nat) : BondState :=
  (List.range L).foldl (fillRow p bufN bufE L) ⟨fun _ _ => false, fun _ _ => false, 0⟩

/-- State of the cluster traversal in `SW::run`: the lattice, the
`discovered` grid, the work deque, and two ghost counters -- `discCount`
counts how often a site was added to a cluster and `flips` how often its
spin was negated. -/
structure SWState where
  lat : Lattice
  discovered : Nat → Nat → Bool
  deq : List (Nat × Nat)
  discCount : Nat → Nat → Nat
  flips : Nat → Nat → Nat

/-- One neighbor examination inside the traversal loop
(e.g. LatticeAlgorithms.cpp:147-150): the neighbor `(nx, ny)` of the front
site `(x, y)` joins the cluster iff it has equal spin, is undiscovered, and
the consulted bond flag is set; it is then pushed to the back of the deque
and marked discovered. -/
def tryJoin (x y nx ny : Nat) (bond : Bool) (st : SWState) : SWState :=
  if latGet st.lat x y == latGet st.lat nx ny && st.discovered nx ny == false
      && bond then
    { st with deq := st.deq ++ [(nx, ny)]
            , discovered := upd2 st.discovered nx ny true
            , discCount := bump2 st.discCount nx ny }
  else
    st

/-- The four neighbor examinations of one traversal iteration
(LatticeAlgorithms.cpp:145-171), applied to the front site `s = (x, y)` in
source order (innermost first): north `(x, (y+1)%L)` through `bn x y`, east
`((x+1)%L, y)` through `be x y`, south `(x, (y-1+L)%L)` through the south
neighbor's own north bond, west `((x-1+L)%L, y)` through the west neighbor's
own east bond. -/
def joins (L : Nat) (bn be : Nat → Nat → Bool) (s : Nat × Nat) (st : SWState) :
    SWState :=
  tryJoin s.1 s.2 ((s.1 + L - 1) % L) s.2 (be ((s.1 + L - 1) % L) s.2)
    (tryJoin s.1 s.2 s.1 ((s.2 + L - 1) % L) (bn s.1 ((s.2 + L - 1) % L))
      (tryJoin s.1 s.2 ((s.1 + 1) % L) s.2 (be s.1 s.2)
        (tryJoin s.1 s.2 s.1 ((s.2 + 1) % L) (bn s.1 s.2) st)))

/-- One iteration of the traversal `while` loop
(LatticeAlgorithms.cpp:141-176): examine the four periodic neighbors of the
front site, then negate the front site if the cluster's coin chose flip, and
pop the front. -/
def bfsStep (L : Nat) (bn be : Nat → Nat → Bool) (flip : Bool) (st : SWState) :
    SWState :=
  match st.deq with
  | [] => st
  | s :: _ =>
    let st4 := joins L bn be s st
    { st4 with lat := if flip then flipAt st4.lat s.1 s.2 else st4.lat
             , flips := if flip then bump2 st4.flips s.1 s.2 else st4.flips
             , deq := st4.deq.tail }

/-- The traversal `while` loop, fuel-indexed: the loop runs until the deque
is empty; `SW.run` supplies fuel `L*L`, which `SW_run_deque_empty` below
shows always drains the deque, so this equals the source's unbounded loop. -/
def bfs (L : Nat) (bn be : Nat → Nat → Bool) (flip : Bool) :
    Nat → SWState → SWState
  | 0, st => st
  | fuel + 1, st =>
    match st.deq with
    | [] => st
    | _ :: _ => bfs L bn be flip fuel (bfsStep L bn be flip st)

/-- Body of the outer scan loop of `SW::run` (LatticeAlgorithms.cpp:133-180)
at flat counter `k` (row `k / L`, column `k % L`): if the site is
undiscovered, draw the cluster's flip coin from the flip buffer at `k`, seed
a fresh deque with the site, mark it discovered and traverse. -/
def swScanStep (bn be : Nat → Nat → Bool) (bufFlip : Nat → ℚ) (L : Nat)
    (st : SWState) (k : Nat) : SWState :=
  let i := k / L
  let j := k % L
  if st.discovered i j then st
  else
    let flip := decide (bufFlip k < (1 / 2 : ℚ))
    bfs L bn be flip (L * L)
      { st with deq := [(i, j)]
              , discovered := upd2 st.discovered i j true
              , discCount := bump2 st.discCount i j }

/-- The outer scan loop of `SW::run` (LatticeAlgorithms.cpp:133-180),
starting from an all-undiscovered grid and zeroed ghost counters. The nested
scan loops with their running `counter` are flattened over `k < L*L` with
`i = k / L`, `j = k % L`. -/
def swScan (bn be : Nat → Nat → Bool) (bufFlip : Nat → ℚ) (L : Nat)
    (lat : Lattice) : SWState :=
  (List.range (L * L)).foldl (swScanStep bn be bufFlip L)
    ⟨lat, fun _ _ => false, [], fun _ _ => 0, fun _ _ => 0⟩

/-- Source `SW::run` (LatticeAlgorithms.cpp:110-185): compute the freeze
probability, fill the bond grids, then scan all sites in row-major order
growing and flipping clusters. -/
def SW.run (E : ℚ → ℚ) (J : Int) (T : ℚ) (bufN bufE bufFlip : Nat → ℚ)
    (L : Nat) (lat : Lattice) : SWState :=
  swScan (fillBonds (swFreezeProbability E J T) bufN bufE L).bn
    (fillBonds (swFreezeProbability E J T) bufN bufE L).be bufFlip L lat

/-- The four traversal directions of the cluster growth. -/
inductive Dir where
  | north
  | east
  | south
  | west
deriving DecidableEq

/-- The periodic neighbor of a site in a direction, with the index
arithmetic of LatticeAlgorithms.cpp:145-167 (`(y+1)%L`, `(x+1)%L`,
`(y-1+L)%L`, `(x-1+L)%L`). -/
def dneighbor (L : Nat) (s : Nat × Nat) : Dir → Nat × Nat
  | Dir.north => (s.1, (s.2 + 1) % L)
  | Dir.east => ((s.1 + 1) % L, s.2)
  | Dir.south => (s.1, (s.2 + L - 1) % L)
  | Dir.west => ((s.1 + L - 1) % L, s.2)

/-- The bond flag the traversal consults when examining the neighbor of
`s` in a direction: its own north/east flag for north/east, the neighbor's
north flag for south, the neighbor's east flag for west
(LatticeAlgorithms.cpp:147,154,161,168). -/
def consultedBond (bn be : Nat → Nat → Bool) (L : Nat) (s : Nat × Nat) :
    Dir → Bool
  | Dir.north => bn s.1 s.2
  | Dir.east => be s.1 s.2
  | Dir.south => bn s.1 ((s.2 + L - 1) % L)
  | Dir.west => be ((s.1 + L - 1) % L) s.2

/-- Opposite direction. -/
def Dir.opp : Dir → Dir
  | Dir.north => Dir.south
  | Dir.east => Dir.west
  | Dir.south => Dir.north
  | Dir.west => Dir.east

/-- Site `s` would admit `t` into its cluster (ignoring the time-dependent
`discovered` check): `t` is a periodic neighbor of `s` in some direction,
has equal spin, and the consulted bond flag is set. -/
def wouldAdmit (lat : Lattice) (bn be : Nat → Nat → Bool) (L : Nat)
    (s t : Nat × Nat) : Bool :=
  [Dir.north, Dir.east, Dir.south, Dir.west].any fun d =>
    (dneighbor L s d == t) && (latGet lat s.1 s.2 == latGet lat t.1 t.2)
      && consultedBond bn be L s d

/-- A lattice is well-formed at side length `L` when it has `L` rows of `L`
entries each, all in `{-1, +1}`. -/
def WellFormed (L : Nat) (lat : Lattice) : Prop :=
  lat.length = L ∧ ∀ row ∈ lat, row.length = L ∧ ∀ v ∈ row, v = 1 ∨ v = -1

instance (L : Nat) (lat : Lattice) : Decidable (WellFormed L lat) := by
  unfold WellFormed
  infer_instance

/-! ### Supporting lemmas -/

lemma exp_buffer_offset_natAbs (J : Int) :
    get_exp_buffer_offset J = 8 * (J.natAbs : Int) := by
  unfold get_exp_buffer_offset
  split <;> omega

lemma getD_set_self {α : Type _} (l : List α) (i : Nat) (a d : α)
    (h : i < l.length) : (l.set i a).getD i d = a := by
  rw [List.getD_eq_getElem?_getD, List.getElem?_set_self h, Option.getD_some]

lemma getD_set_of_ne {α : Type _} (l : List α) (i k : Nat) (a d : α)
    (h : i ≠ k) : (l.set i a).getD k d = l.getD k d := by
  rw [List.getD_eq_getElem?_getD, List.getElem?_set_ne h,
    ← List.getD_eq_getElem?_getD]

lemma latGet_flipAt_self (lat : Lattice) (i j : Nat) (hi : i < lat.length)
    (hj : j < (lat.getD i []).length) :
    latGet (flipAt lat i j) i j = -(latGet lat i j) := by
  unfold latGet flipAt
  rw [getD_set_self _ _ _ _ hi, getD_set_self _ _ _ _ hj]
  rfl

lemma latGet_flipAt_of_ne (lat : Lattice) (i j a b : Nat)
    (h : ¬(a = i ∧ b = j)) :
    latGet (flipAt lat i j) a b = latGet lat a b := by
  unfold latGet flipAt
  by_cases hai : a = i
  · subst hai
    have hbj : b ≠ j := fun hb => h ⟨rfl, hb⟩
    by_cases hlen : a < lat.length
    · rw [getD_set_self _ _ _ _ hlen, getD_set_of_ne _ _ _ _ _ (Ne.symm hbj)]
    · rw [List.set_eq_of_length_le (Nat.le_of_not_lt hlen)]
  · rw [getD_set_of_ne _ _ _ _ _ (fun he => hai he.symm)]

lemma foldl_add_eq (l : List ℚ) (a : ℚ) :
    l.foldl (fun x y => x + y) a = a + l.sum := by
  induction l generalizing a with
  | nil => simp
  | cons h t ih => simp only [List.foldl_cons, ih, List.sum_cons]; ring

lemma foldl_add_sq_eq (l : List ℚ) (a : ℚ) :
    l.foldl (fun x y => x + y * y) a = a + (l.map (fun x => x * x)).sum := by
  induction l generalizing a with
  | nil => simp
  | cons h t ih => simp only [List.foldl_cons, ih, List.map_cons, List.sum_cons]; ring

lemma get_mean_eq_sum_div (l : List ℚ) : get_mean l = l.sum / (l.length : ℚ) := by
  unfold get_mean
  rw [foldl_add_eq, zero_add]

lemma get_squared_mean_eq (l : List ℚ) :
    get_squared_mean l = (l.map (fun x => x * x)).sum / (l.length : ℚ) := by
  unfold get_squared_mean
  rw [foldl_add_sq_eq, zero_add]

/-! ### Periodic index arithmetic -/

lemma north_south_inverse (L y : Nat) (hy : y < L) :
    ((y + 1) % L + L - 1) % L = y := by
  rcases Nat.lt_or_ge (y + 1) L with h | h
  · rw [Nat.mod_eq_of_lt h]
    have h2 : y + 1 + L - 1 = y + L := by omega
    rw [h2, Nat.add_mod_right, Nat.mod_eq_of_lt hy]
  · have hL : y + 1 = L := by omega
    rw [hL, Nat.mod_self]
    have h2 : 0 + L - 1 = y := by omega
    rw [h2, Nat.mod_eq_of_lt hy]

lemma south_north_inverse (L y : Nat) (hy : y < L) :
    ((y + L - 1) % L + 1) % L = y := by
  rcases Nat.eq_zero_or_pos y with h0 | hpos
  · subst h0
    have h2 : 0 + L - 1 = L - 1 := by omega
    have h3 : (L - 1) % L = L - 1 := Nat.mod_eq_of_lt (by omega)
    have h4 : L - 1 + 1 = L := by omega
    rw [h2, h3, h4, Nat.mod_self]
  · have h2 : y + L - 1 = (y - 1) + L := by omega
    have h3 : (y - 1) % L = y - 1 := Nat.mod_eq_of_lt (by omega)
    have h4 : y - 1 + 1 = y := by omega
    rw [h2, Nat.add_mod_right, h3, h4, Nat.mod_eq_of_lt hy]

/-! ### Generic fold invariance -/

lemma foldl_preserve {α β : Type _} (P : α → Prop) (f : α → β → α)
    (hf : ∀ a b, P a → P (f a b)) :
    ∀ (l : List β) (a : α), P a → P (l.foldl f a) := by
  intro l
  induction l with
  | nil => intro a ha; exact ha
  | cons h t ih => intro a ha; exact ih (f a h) (hf a h ha)

/-! ### Swendsen-Wang traversal invariants -/

/-- The ghost discovery counter agrees with the `discovered` grid: every
site has been added to a cluster once if discovered, never otherwise. -/
def InvCount (st : SWState) : Prop :=
  ∀ a b, st.discCount a b = (if st.discovered a b then 1 else 0)

/-- Negations so far plus pending deque occurrences are bounded by the
discovery indicator: an undiscovered site was never negated nor enqueued,
and a discovered site is negated at most once overall. -/
def InvFlips (st : SWState) : Prop :=
  ∀ a b, st.flips a b + st.deq.count (a, b) ≤ (if st.discovered a b then 1 else 0)

lemma tryJoin_lat (x y nx ny : Nat) (bond : Bool) (st : SWState) :
    (tryJoin x y nx ny bond st).lat = st.lat := by
  unfold tryJoin
  split <;> rfl

lemma tryJoin_flips (x y nx ny : Nat) (bond : Bool) (st : SWState) :
    (tryJoin x y nx ny bond st).flips = st.flips := by
  unfold tryJoin
  split <;> rfl

lemma tryJoin_discovered_mono (x y nx ny : Nat) (bond : Bool) (st : SWState)
    (a b : Nat) (h : st.discovered a b = true) :
    (tryJoin x y nx ny bond st).discovered a b = true := by
  unfold tryJoin
  split
  · simp only [upd2]
    split
    · rfl
    · exact h
  · exact h

lemma tryJoin_deq_cons (x y nx ny : Nat) (bond : Bool) (st : SWState)
    (hd : Nat × Nat) (tl : List (Nat × Nat)) (h : st.deq = hd :: tl) :
    ∃ tl', (tryJoin x y nx ny bond st).deq = hd :: tl' := by
  unfold tryJoin
  split
  · exact ⟨tl ++ [(nx, ny)], by rw [h]; rfl⟩
  · exact ⟨tl, h⟩

lemma tryJoin_invCount (x y nx ny : Nat) (bond : Bool) (st : SWState)
    (h : InvCount st) : InvCount (tryJoin x y nx ny bond st) := by
  unfold tryJoin
  split
  case isTrue hcond =>
    simp only [Bool.and_eq_true, beq_iff_eq] at hcond
    obtain ⟨⟨_, hundisc⟩, _⟩ := hcond
    intro a b
    simp only [upd2, bump2]
    by_cases hab : a = nx ∧ b = ny
    · rw [hab.1, hab.2]
      simp [h nx ny, hundisc]
    · simp only [if_neg hab]
      exact h a b
  case isFalse => exact h

lemma tryJoin_invFlips (x y nx ny : Nat) (bond : Bool) (st : SWState)
    (h : InvFlips st) : InvFlips (tryJoin x y nx ny bond st) := by
  unfold tryJoin
  split
  case isTrue hcond =>
    simp only [Bool.and_eq_true, beq_iff_eq] at hcond
    obtain ⟨⟨_, hundisc⟩, _⟩ := hcond
    intro a b
    simp only [upd2]
    rw [List.count_append]
    by_cases hab : a = nx ∧ b = ny
    · rw [hab.1, hab.2]
      have hh := h nx ny
      rw [hundisc] at hh
      simp only [if_neg Bool.false_ne_true] at hh
      simp
      omega
    · simp only [if_neg hab]
      have hh := h a b
      have hone : List.count (a, b) [(nx, ny)] = 0 := by
        simp only [List.count_cons, List.count_nil, beq_iff_eq]
        have hne : ¬((nx, ny) = (a, b)) := by
          intro he
          exact hab ⟨(congrArg Prod.fst he).symm, (congrArg Prod.snd he).symm⟩
        simp [hne]
      rw [hone]
      omega
  case isFalse => exact h

lemma joins_lat (L : Nat) (bn be : Nat → Nat → Bool) (s : Nat × Nat)
    (st : SWState) : (joins L bn be s st).lat = st.lat := by
  unfold joins
  rw [tryJoin_lat, tryJoin_lat, tryJoin_lat, tryJoin_lat]

lemma joins_discovered_mono (L : Nat) (bn be : Nat → Nat → Bool)
    (s : Nat × Nat) (st : SWState) (a b : Nat)
    (h : st.discovered a b = true) :
    (joins L bn be s st).discovered a b = true := by
  unfold joins
  exact tryJoin_discovered_mono _ _ _ _ _ _ _ _
    (tryJoin_discovered_mono _ _ _ _ _ _ _ _
      (tryJoin_discovered_mono _ _ _ _ _ _ _ _
        (tryJoin_discovered_mono _ _ _ _ _ _ _ _ h)))

lemma joins_invCount (L : Nat) (bn be : Nat → Nat → Bool) (s : Nat × Nat)
    (st : SWState) (h : InvCount st) : InvCount (joins L bn be s st) := by
  unfold joins
  exact tryJoin_invCount _ _ _ _ _ _
    (tryJoin_invCount _ _ _ _ _ _
      (tryJoin_invCount _ _ _ _ _ _
        (tryJoin_invCount _ _ _ _ _ _ h)))

lemma joins_invFlips (L : Nat) (bn be : Nat → Nat → Bool) (s : Nat × Nat)
    (st : SWState) (h : InvFlips st) : InvFlips (joins L bn be s st) := by
  unfold joins
  exact tryJoin_invFlips _ _ _ _ _ _
    (tryJoin_invFlips _ _ _ _ _ _
      (tryJoin_invFlips _ _ _ _ _ _
        (tryJoin_invFlips _ _ _ _ _ _ h)))

lemma joins_deq_cons (L : Nat) (bn be : Nat → Nat → Bool) (s : Nat × Nat)
    (st : SWState) (hd : Nat × Nat) (tl : List (Nat × Nat))
    (h : st.deq = hd :: tl) :
    ∃ tl', (joins L bn be s st).deq = hd :: tl' := by
  unfold joins
  obtain ⟨t1, h1⟩ := tryJoin_deq_cons s.1 s.2 s.1 ((s.2 + 1) % L) (bn s.1 s.2) st hd tl h
  obtain ⟨t2, h2⟩ := tryJoin_deq_cons s.1 s.2 ((s.1 + 1) % L) s.2 (be s.1 s.2) _ hd t1 h1
  obtain ⟨t3, h3⟩ := tryJoin_deq_cons s.1 s.2 s.1 ((s.2 + L - 1) % L)
    (bn s.1 ((s.2 + L - 1) % L)) _ hd t2 h2
  exact tryJoin_deq_cons s.1 s.2 ((s.1 + L - 1) % L) s.2
    (be ((s.1 + L - 1) % L) s.2) _ hd t3 h3

lemma bfsStep_discovered_mono (L : Nat) (bn be : Nat → Nat → Bool)
    (flip : Bool) (st : SWState) (a b : Nat)
    (h : st.discovered a b = true) :
    (bfsStep L bn be flip st).discovered a b = true := by
  unfold bfsStep
  split
  · exact h
  · exact joins_discovered_mono L bn be _ st a b h

lemma bfsStep_invCount (L : Nat) (bn be : Nat → Nat → Bool) (flip : Bool)
    (st : SWState) (hc : InvCount st) : InvCount (bfsStep L bn be flip st) := by
  unfold bfsStep
  split
  · exact hc
  · exact joins_invCount L bn be _ st hc

lemma bfsStep_invFlips (L : Nat) (bn be : Nat → Nat → Bool) (flip : Bool)
    (st : SWState) (hf : InvFlips st) :
    InvFlips (bfsStep L bn be flip st) := by
  unfold bfsStep
  split
  · exact hf
  next s rest heq =>
    obtain ⟨tl4, htl4⟩ := joins_deq_cons L bn be s st s rest heq
    have h4 := joins_invFlips L bn be s st hf
    intro a b
    dsimp only
    rw [htl4, List.tail_cons]
    have hab := h4 a b
    rw [htl4, List.count_cons] at hab
    simp only [beq_iff_eq] at hab
    by_cases hs : s = (a, b)
    · have hps : a = s.1 ∧ b = s.2 := by rw [hs]; exact ⟨rfl, rfl⟩
      simp only [if_pos hs] at hab
      cases flip
      · simp only [Bool.false_eq_true, if_false]
        omega
      · simp only [eq_self_iff_true, if_true, bump2, if_pos hps]
        omega
    · have hps : ¬(a = s.1 ∧ b = s.2) := by
        intro hk
        exact hs (by rw [Prod.ext_iff]; exact ⟨hk.1.symm, hk.2.symm⟩)
      simp only [if_neg hs] at hab
      cases flip
      · simp only [Bool.false_eq_true, if_false]
        omega
      · simp only [eq_self_iff_true, if_true, bump2, if_neg hps]
        omega

lemma bfs_invs (L : Nat) (bn be : Nat → Nat → Bool) (flip : Bool) :
    ∀ (fuel : Nat) (st : SWState), InvCount st → InvFlips st →
      InvCount (bfs L bn be flip fuel st) ∧ InvFlips (bfs L bn be flip fuel st) := by
  intro fuel
  induction fuel with
  | zero => intro st hc hf; exact ⟨hc, hf⟩
  | succ n ih =>
    intro st hc hf
    rw [bfs]
    split
    · exact ⟨hc, hf⟩
    · exact ih _ (bfsStep_invCount L bn be flip st hc)
        (bfsStep_invFlips L bn be flip st hf)

lemma bfs_discovered_mono (L : Nat) (bn be : Nat → Nat → Bool) (flip : Bool) :
    ∀ (fuel : Nat) (st : SWState) (a b : Nat), st.discovered a b = true →
      (bfs L bn be flip fuel st).discovered a b = true := by
  intro fuel
  induction fuel with
  | zero => intro st a b h; exact h
  | succ n ih =>
    intro st a b h
    rw [bfs]
    split
    · exact h
    · exact ih _ a b (bfsStep_discovered_mono L bn be flip st a b h)

lemma seed_invCount (st : SWState) (i j : Nat) (h : InvCount st)
    (hnd : st.discovered i j = false) :
    InvCount { st with deq := [(i, j)]
                     , discovered := upd2 st.discovered i j true
                     , discCount := bump2 st.discCount i j } := by
  intro a b
  dsimp only
  simp only [upd2, bump2]
  by_cases hab : a = i ∧ b = j
  · rw [hab.1, hab.2]
    simp [h i j, hnd]
  · simp only [if_neg hab]
    exact h a b

lemma seed_invFlips (st : SWState) (i j : Nat) (hf : InvFlips st)
    (hnd : st.discovered i j = false) :
    InvFlips { st with deq := [(i, j)]
                     , discovered := upd2 st.discovered i j true
                     , discCount := bump2 st.discCount i j } := by
  intro a b
  dsimp only
  simp only [upd2]
  by_cases hab : a = i ∧ b = j
  · rw [hab.1, hab.2]
    have hh := hf i j
    rw [hnd] at hh
    simp only [if_neg Bool.false_ne_true] at hh
    simp only [List.count_cons, List.count_nil, beq_iff_eq]
    simp
    omega
  · have hh := hf a b
    have hcnt : List.count (a, b) [(i, j)] = 0 := by
      simp only [List.count_cons, List.count_nil, beq_iff_eq]
      have hne : ¬((i, j) = (a, b)) := fun he =>
        hab ⟨(congrArg Prod.fst he).symm, (congrArg Prod.snd he).symm⟩
      simp [hne]
    rw [hcnt]
    simp only [if_neg hab]
    omega

lemma swScanStep_invs (bn be : Nat → Nat → Bool) (bufFlip : Nat → ℚ)
    (L : Nat) (st : SWState) (k : Nat) (hc : InvCount st) (hf : InvFlips st) :
    InvCount (swScanStep bn be bufFlip L st k)
      ∧ InvFlips (swScanStep bn be bufFlip L st k) := by
  unfold swScanStep
  dsimp only
  split
  · exact ⟨hc, hf⟩
  next hnd =>
    have hnd' : st.discovered (k / L) (k % L) = false := by
      revert hnd
      cases st.discovered (k / L) (k % L) <;> simp
    exact bfs_invs L bn be _ (L * L) _
      (seed_invCount st (k / L) (k % L) hc hnd')
      (seed_invFlips st (k / L) (k % L) hf hnd')

lemma swScanStep_discovered_mono (bn be : Nat → Nat → Bool) (bufFlip : Nat → ℚ)
    (L : Nat) (st : SWState) (k a b : Nat) (h : st.discovered a b = true) :
    (swScanStep bn be bufFlip L st k).discovered a b = true := by
  unfold swScanStep
  dsimp only
  split
  · exact h
  · apply bfs_discovered_mono
    dsimp only
    simp only [upd2]
    split
    · rfl
    · exact h

lemma swScanStep_discovers_self (bn be : Nat → Nat → Bool) (bufFlip : Nat → ℚ)
    (L : Nat) (st : SWState) (k : Nat) :
    (swScanStep bn be bufFlip L st k).discovered (k / L) (k % L) = true := by
  unfold swScanStep
  dsimp only
  split
  next hd => exact hd
  next hd =>
    apply bfs_discovered_mono
    dsimp only
    simp [upd2]

lemma swScan_fold_discovers (bn be : Nat → Nat → Bool) (bufFlip : Nat → ℚ)
    (L : Nat) (l : List Nat) :
    ∀ (st : SWState) (k : Nat), k ∈ l →
      (l.foldl (swScanStep bn be bufFlip L) st).discovered (k / L) (k % L) = true := by
  induction l with
  | nil => intro st k hk; exact absurd hk (List.not_mem_nil k)
  | cons h t ih =>
    intro st k hk
    rw [List.foldl_cons]
    rcases List.mem_cons.mp hk with rfl | hk'
    · exact foldl_preserve (fun s => s.discovered (k / L) (k % L) = true) _
        (fun s2 k2 hp => swScanStep_discovered_mono bn be bufFlip L s2 k2
          (k / L) (k % L) hp) t _
        (swScanStep_discovers_self bn be bufFlip L st k)
    · exact ih _ k hk'

lemma WellFormed_flipAt (L : Nat) (lat : Lattice) (i j : Nat)
    (h : WellFormed L lat) : WellFormed L (flipAt lat i j) := by
  obtain ⟨hlen, hrows⟩ := h
  by_cases hi : i < lat.length
  case neg =>
    unfold flipAt
    rw [List.set_eq_of_length_le (Nat.le_of_not_lt hi)]
    exact ⟨hlen, hrows⟩
  case pos =>
    have hrow0 : lat.getD i [] = lat[i] := by
      rw [List.getD_eq_getElem?_getD, List.getElem?_eq_getElem hi, Option.getD_some]
    obtain ⟨hrl, hrv⟩ := hrows _ (List.getElem_mem hi)
    constructor
    · unfold flipAt
      rw [List.length_set]
      exact hlen
    · intro row hrow
      unfold flipAt at hrow
      rcases List.mem_or_eq_of_mem_set hrow with hmem | heq
      · exact hrows row hmem
      · subst heq
        by_cases hj : j < (lat.getD i []).length
        case neg =>
          rw [List.set_eq_of_length_le (Nat.le_of_not_lt hj), hrow0]
          exact ⟨hrl, hrv⟩
        case pos =>
          constructor
          · rw [List.length_set, hrow0]
            exact hrl
          · intro v hv
            rcases List.mem_or_eq_of_mem_set hv with hv' | hveq
            · exact hrv v (by rw [hrow0] at hv'; exact hv')
            · subst hveq
              have hj' : j < lat[i].length := by rw [← hrow0]; exact hj
              have hlv : latGet lat i j ∈ lat[i] := by
                unfold latGet
                rw [hrow0, List.getD_eq_getElem?_getD, List.getElem?_eq_getElem hj',
                  Option.getD_some]
                exact List.getElem_mem hj'
              rcases hrv _ hlv with h1 | h1
              · right
                rw [h1]
              · left
                rw [h1]
                decide

lemma WellFormed_metStep (L : Nat) (J : Int) (gdE : Lattice → Nat → Nat → Int)
    (table : List ℚ) (idx : Nat → Nat × Nat) (u : Nat → ℚ) (lat : Lattice)
    (i : Nat) (h : WellFormed L lat) :
    WellFormed L (metStep J gdE table idx u lat i) := by
  unfold metStep
  dsimp only
  split
  · exact WellFormed_flipAt L lat _ _ h
  · exact h

lemma WellFormed_bfsStep (L : Nat) (bn be : Nat → Nat → Bool) (flip : Bool)
    (st : SWState) (h : WellFormed L st.lat) :
    WellFormed L (bfsStep L bn be flip st).lat := by
  unfold bfsStep
  split
  · exact h
  · dsimp only
    rw [joins_lat]
    split
    · exact WellFormed_flipAt L st.lat _ _ h
    · exact h

lemma WellFormed_bfs (L : Nat) (bn be : Nat → Nat → Bool) (flip : Bool) :
    ∀ (fuel : Nat) (st : SWState), WellFormed L st.lat →
      WellFormed L (bfs L bn be flip fuel st).lat := by
  intro fuel
  induction fuel with
  | zero => intro st h; exact h
  | succ n ih =>
    intro st h
    rw [bfs]
    split
    · exact h
    · exact ih _ (WellFormed_bfsStep L bn be flip st h)

lemma WellFormed_swScanStep (L : Nat) (bn be : Nat → Nat → Bool)
    (bufFlip : Nat → ℚ) (st : SWState) (k : Nat) (h : WellFormed L st.lat) :
    WellFormed L (swScanStep bn be bufFlip L st k).lat := by
  unfold swScanStep
  dsimp only
  split
  · exact h
  · exact WellFormed_bfs L bn be _ (L * L) _ h

lemma dneighbor_opp (L : Nat) (s : Nat × Nat) (hs1 : s.1 < L) (hs2 : s.2 < L)
    (d : Dir) : dneighbor L (dneighbor L s d) d.opp = s := by
  cases d
  · show (s.1, ((s.2 + 1) % L + L - 1) % L) = s
    rw [north_south_inverse L s.2 hs2]
  · show (((s.1 + 1) % L + L - 1) % L, s.2) = s
    rw [north_south_inverse L s.1 hs1]
  · show (s.1, ((s.2 + L - 1) % L + 1) % L) = s
    rw [south_north_inverse L s.2 hs2]
  · show (((s.1 + L - 1) % L + 1) % L, s.2) = s
    rw [south_north_inverse L s.1 hs1]

lemma consultedBond_opp (bn be : Nat → Nat → Bool) (L : Nat) (s : Nat × Nat)
    (hs1 : s.1 < L) (hs2 : s.2 < L) (d : Dir) :
    consultedBond bn be L (dneighbor L s d) d.opp = consultedBond bn be L s d := by
  cases d
  · show bn s.1 (((s.2 + 1) % L + L - 1) % L) = bn s.1 s.2
    rw [north_south_inverse L s.2 hs2]
  · show be (((s.1 + 1) % L + L - 1) % L) s.2 = be s.1 s.2
    rw [north_south_inverse L s.1 hs1]
  · rfl
  · rfl

lemma dneighbor_lt (L : Nat) (hL : 1 ≤ L) (s : Nat × Nat) (hs1 : s.1 < L)
    (hs2 : s.2 < L) (d : Dir) :
    (dneighbor L s d).1 < L ∧ (dneighbor L s d).2 < L := by
  cases d <;> exact ⟨by first | exact hs1 | exact Nat.mod_lt _ hL,
    by first | exact hs2 | exact Nat.mod_lt _ hL⟩

lemma Dir.opp_mem (d : Dir) : d.opp ∈ [Dir.north, Dir.east, Dir.south, Dir.west] := by
  cases d <;> simp [Dir.opp]

lemma wouldAdmit_imp (lat : Lattice) (bn be : Nat → Nat → Bool) (L : Nat)
    (s t : Nat × Nat) (hs1 : s.1 < L) (hs2 : s.2 < L) :
    wouldAdmit lat bn be L s t = true → wouldAdmit lat bn be L t s = true := by
  intro h
  rw [wouldAdmit, List.any_eq_true] at h ⊢
  obtain ⟨d, _, hcond⟩ := h
  refine ⟨d.opp, Dir.opp_mem d, ?_⟩
  simp only [Bool.and_eq_true, beq_iff_eq] at hcond ⊢
  obtain ⟨⟨hnb, hspin⟩, hbond⟩ := hcond
  subst hnb
  refine ⟨⟨dneighbor_opp L s hs1 hs2 d, hspin.symm⟩, ?_⟩
  rw [consultedBond_opp bn be L s hs1 hs2 d]
  exact hbond

lemma fillCells_counter (p : ℚ) (bufN bufE : Nat → ℚ) (i : Nat) (l : List Nat) :
    ∀ st : BondState,
      (l.foldl (fillCell p bufN bufE i) st).counter = st.counter + l.length := by
  induction l with
  | nil => intro st; simp
  | cons h t ih =>
    intro st
    rw [List.foldl_cons, ih]
    show st.counter + 1 + t.length = st.counter + (t.length + 1)
    omega

lemma fillRow_eval (p : ℚ) (bufN bufE : Nat → ℚ) (i : Nat) :
    ∀ (n : Nat) (st : BondState) (a b : Nat),
      ((List.range n).foldl (fillCell p bufN bufE i) st).bn a b
        = (if a = i ∧ b < n then decide (bufN (st.counter + b) < p) else st.bn a b)
      ∧ ((List.range n).foldl (fillCell p bufN bufE i) st).be a b
        = (if a = i ∧ b < n then decide (bufE (st.counter + b) < p) else st.be a b) := by
  intro n
  induction n with
  | zero => intro st a b; simp
  | succ m ih =>
    intro st a b
    rw [List.range_succ, List.foldl_append, List.foldl_cons, List.foldl_nil]
    have hcnt : ((List.range m).foldl (fillCell p bufN bufE i) st).counter
        = st.counter + m := by
      rw [fillCells_counter]
      simp
    have hsplit : ∀ hk : a = i ∧ b < m + 1, ¬(a = i ∧ b = m) → a = i ∧ b < m := by
      intro hk hne
      have hbm : b ≠ m := fun hb => hne ⟨hk.1, hb⟩
      have hblt : b < m + 1 := hk.2
      exact ⟨hk.1, by omega⟩
    constructor
    · show (upd2 _ i m _) a b = _
      simp only [upd2, hcnt]
      by_cases hab : a = i ∧ b = m
      · rw [if_pos hab, if_pos ⟨hab.1, by omega⟩, hab.2]
      · rw [if_neg hab, (ih st a b).1]
        by_cases h3 : a = i ∧ b < m
        · rw [if_pos h3, if_pos ⟨h3.1, by omega⟩]
        · rw [if_neg h3, if_neg (fun hk => h3 (hsplit hk hab))]
    · show (upd2 _ i m _) a b = _
      simp only [upd2, hcnt]
      by_cases hab : a = i ∧ b = m
      · rw [if_pos hab, if_pos ⟨hab.1, by omega⟩, hab.2]
      · rw [if_neg hab, (ih st a b).2]
        by_cases h3 : a = i ∧ b < m
        · rw [if_pos h3, if_pos ⟨h3.1, by omega⟩]
        · rw [if_neg h3, if_neg (fun hk => h3 (hsplit hk hab))]

lemma fillRows_counter (p : ℚ) (bufN bufE : Nat → ℚ) (L : Nat) :
    ∀ (R : Nat) (st : BondState),
      ((List.range R).foldl (fillRow p bufN bufE L) st).counter
        = st.counter + R * L := by
  intro R
  induction R with
  | zero => intro st; simp
  | succ m ih =>
    intro st
    rw [List.range_succ, List.foldl_append, List.foldl_cons, List.foldl_nil]
    show ((List.range L).foldl (fillCell p bufN bufE m) _).counter = _
    rw [fillCells_counter, ih]
    simp only [List.length_range]
    ring_nf

lemma fillBonds_eval (p : ℚ) (bufN bufE : Nat → ℚ) (L : Nat) :
    ∀ (R : Nat) (st : BondState) (a b : Nat), b < L →
      (((List.range R).foldl (fillRow p bufN bufE L) st).bn a b
        = if a < R then decide (bufN (st.counter + (a * L + b)) < p) else st.bn a b)
      ∧ (((List.range R).foldl (fillRow p bufN bufE L) st).be a b
        = if a < R then decide (bufE (st.counter + (a * L + b)) < p) else st.be a b) := by
  intro R
  induction R with
  | zero => intro st a b _; simp
  | succ m ih =>
    intro st a b hb
    rw [List.range_succ, List.foldl_append, List.foldl_cons, List.foldl_nil]
    have hcnt : ((List.range m).foldl (fillRow p bufN bufE L) st).counter
        = st.counter + m * L := fillRows_counter p bufN bufE L m st
    have hrow := fillRow_eval p bufN bufE m L
      ((List.range m).foldl (fillRow p bufN bufE L) st) a b
    constructor
    · show ((List.range L).foldl (fillCell p bufN bufE m) _).bn a b = _
      rw [hrow.1, hcnt]
      by_cases ham : a = m
      · rw [if_pos ⟨ham, hb⟩, if_pos (by omega), ham]
        congr 2
        ring_nf
      · rw [if_neg (fun hk => ham hk.1), (ih st a b hb).1]
        by_cases h3 : a < m
        · rw [if_pos h3, if_pos (by omega)]
        · rw [if_neg h3, if_neg (by omega)]
    · show ((List.range L).foldl (fillCell p bufN bufE m) _).be a b = _
      rw [hrow.2, hcnt]
      by_cases ham : a = m
      · rw [if_pos ⟨ham, hb⟩, if_pos (by omega), ham]
        congr 2
        ring_nf
      · rw [if_neg (fun hk => ham hk.1), (ih st a b hb).2]
        by_cases h3 : a < m
        · rw [if_pos h3, if_pos (by omega)]
        · rw [if_neg h3, if_neg (by omega)]

/-! ### Fuel sufficiency for the traversal loop -/

/-- The in-range sites not yet discovered. -/
def undisc (L : Nat) (f : Nat → Nat → Bool) : Finset (Nat × Nat) :=
  ((Finset.range L) ×ˢ (Finset.range L)).filter (fun q => f q.1 q.2 = false)

/-- Termination measure of the traversal: pending deque entries plus
undiscovered in-range sites. -/
def swMeasure (L : Nat) (st : SWState) : Nat :=
  st.deq.length + (undisc L st.discovered).card

/-- All pending deque entries are in range. -/
def InRange (L : Nat) (st : SWState) : Prop :=
  ∀ q ∈ st.deq, q.1 < L ∧ q.2 < L

lemma mem_undisc (L : Nat) (f : Nat → Nat → Bool) (q : Nat × Nat) :
    q ∈ undisc L f ↔ (q.1 < L ∧ q.2 < L) ∧ f q.1 q.2 = false := by
  simp [undisc, Finset.mem_filter, Finset.mem_product, Finset.mem_range, and_assoc]

lemma undisc_upd2 (L : Nat) (f : Nat → Nat → Bool) (i j : Nat) :
    undisc L (upd2 f i j true) = (undisc L f).erase (i, j) := by
  ext q
  simp only [mem_undisc, Finset.mem_erase, upd2]
  constructor
  · rintro ⟨hq, hfq⟩
    by_cases hc : q.1 = i ∧ q.2 = j
    · rw [if_pos hc] at hfq
      exact absurd hfq (by simp)
    · rw [if_neg hc] at hfq
      refine ⟨fun he => hc ⟨by rw [he], by rw [he]⟩, hq, hfq⟩
  · rintro ⟨hne, hq, hfq⟩
    have hc : ¬(q.1 = i ∧ q.2 = j) := fun hk =>
      hne (by rw [Prod.ext_iff]; exact hk)
    rw [if_neg hc]
    exact ⟨hq, hfq⟩

lemma tryJoin_measure (L x y nx ny : Nat) (bond : Bool) (st : SWState)
    (hx : nx < L) (hy : ny < L) :
    swMeasure L (tryJoin x y nx ny bond st) = swMeasure L st := by
  unfold tryJoin
  split
  case isTrue hcond =>
    simp only [Bool.and_eq_true, beq_iff_eq] at hcond
    obtain ⟨⟨_, hundisc⟩, _⟩ := hcond
    have hmem : (nx, ny) ∈ undisc L st.discovered := by
      rw [mem_undisc]
      exact ⟨⟨hx, hy⟩, hundisc⟩
    have hpos : 0 < (undisc L st.discovered).card := Finset.card_pos.mpr ⟨_, hmem⟩
    unfold swMeasure
    dsimp only
    rw [undisc_upd2, Finset.card_erase_of_mem hmem, List.length_append]
    simp only [List.length_singleton]
    omega
  case isFalse => rfl

lemma tryJoin_inRange (L x y nx ny : Nat) (bond : Bool) (st : SWState)
    (hx : nx < L) (hy : ny < L) (h : InRange L st) :
    InRange L (tryJoin x y nx ny bond st) := by
  unfold tryJoin
  split
  · intro q hq
    dsimp only at hq
    rcases List.mem_append.mp hq with hq1 | hq2
    · exact h q hq1
    · rw [List.mem_singleton] at hq2
      subst hq2
      exact ⟨hx, hy⟩
  · exact h

lemma joins_measure (L : Nat) (bn be : Nat → Nat → Bool) (s : Nat × Nat)
    (st : SWState) (hL : 0 < L) (hs1 : s.1 < L) (hs2 : s.2 < L) :
    swMeasure L (joins L bn be s st) = swMeasure L st := by
  unfold joins
  rw [tryJoin_measure L s.1 s.2 ((s.1 + L - 1) % L) s.2 _ _ (Nat.mod_lt _ hL) hs2,
    tryJoin_measure L s.1 s.2 s.1 ((s.2 + L - 1) % L) _ _ hs1 (Nat.mod_lt _ hL),
    tryJoin_measure L s.1 s.2 ((s.1 + 1) % L) s.2 _ _ (Nat.mod_lt _ hL) hs2,
    tryJoin_measure L s.1 s.2 s.1 ((s.2 + 1) % L) _ _ hs1 (Nat.mod_lt _ hL)]

lemma joins_inRange (L : Nat) (bn be : Nat → Nat → Bool) (s : Nat × Nat)
    (st : SWState) (hL : 0 < L) (hs1 : s.1 < L) (hs2 : s.2 < L)
    (h : InRange L st) : InRange L (joins L bn be s st) := by
  unfold joins
  exact tryJoin_inRange L _ _ _ _ _ _ (Nat.mod_lt _ hL) hs2
    (tryJoin_inRange L _ _ _ _ _ _ hs1 (Nat.mod_lt _ hL)
      (tryJoin_inRange L _ _ _ _ _ _ (Nat.mod_lt _ hL) hs2
        (tryJoin_inRange L _ _ _ _ _ _ hs1 (Nat.mod_lt _ hL) h)))

lemma bfsStep_measure (L : Nat) (bn be : Nat → Nat → Bool) (flip : Bool)
    (st : SWState) (hL : 0 < L) (hin : InRange L st) (hne : st.deq ≠ []) :
    swMeasure L (bfsStep L bn be flip st) + 1 = swMeasure L st := by
  unfold bfsStep
  split
  next heq => exact absurd heq hne
  next s rest heq =>
    have hs := hin s (by rw [heq]; exact List.mem_cons_self s rest)
    obtain ⟨tl4, htl4⟩ := joins_deq_cons L bn be s st s rest heq
    have hm := joins_measure L bn be s st hL hs.1 hs.2
    unfold swMeasure at hm ⊢
    dsimp only
    rw [htl4, List.tail_cons]
    rw [htl4] at hm
    simp only [List.length_cons] at hm
    omega

lemma bfsStep_inRange (L : Nat) (bn be : Nat → Nat → Bool) (flip : Bool)
    (st : SWState) (hL : 0 < L) (hin : InRange L st) :
    InRange L (bfsStep L bn be flip st) := by
  unfold bfsStep
  split
  · exact hin
  next s rest heq =>
    have hs := hin s (by rw [heq]; exact List.mem_cons_self s rest)
    intro q hq
    dsimp only at hq
    exact joins_inRange L bn be s st hL hs.1 hs.2 hin q (List.mem_of_mem_tail hq)

lemma bfs_drains (L : Nat) (bn be : Nat → Nat → Bool) (flip : Bool)
    (hL : 0 < L) :
    ∀ (fuel : Nat) (st : SWState), InRange L st → swMeasure L st ≤ fuel →
      (bfs L bn be flip fuel st).deq = [] := by
  intro fuel
  induction fuel with
  | zero =>
    intro st _ hm
    have hlen : st.deq.length = 0 := by
      unfold swMeasure at hm
      omega
    exact List.length_eq_zero.mp hlen
  | succ n ih =>
    intro st hin hm
    rw [bfs]
    split
    next heq => exact heq
    next s rest heq =>
      refine ih (bfsStep L bn be flip st) (bfsStep_inRange L bn be flip st hL hin) ?_
      have hstep := bfsStep_measure L bn be flip st hL hin
        (by rw [heq]; exact List.cons_ne_nil s rest)
      omega

lemma swScanStep_deq_drained (bn be : Nat → Nat → Bool) (bufFlip : Nat → ℚ)
    (L : Nat) (st : SWState) (k : Nat) (hL : 0 < L) (hk : k < L * L)
    (hdeq : st.deq = []) :
    (swScanStep bn be bufFlip L st k).deq = [] := by
  have hdiv : k / L < L := Nat.div_lt_of_lt_mul (by rw [Nat.mul_comm] at hk; exact hk)
  have hmod : k % L < L := Nat.mod_lt _ hL
  unfold swScanStep
  dsimp only
  split
  · exact hdeq
  next hnd =>
    apply bfs_drains L bn be _ hL
    · intro q hq
      dsimp only at hq
      rw [List.mem_singleton] at hq
      subst hq
      exact ⟨hdiv, hmod⟩
    · have hnd' : st.discovered (k / L) (k % L) = false := by
        revert hnd
        cases st.discovered (k / L) (k % L) <;> simp
      have hmem : (k / L, k % L) ∈ undisc L st.discovered := by
        rw [mem_undisc]
        exact ⟨⟨hdiv, hmod⟩, hnd'⟩
      have hcard : (undisc L st.discovered).card ≤ L * L := by
        calc (undisc L st.discovered).card
            ≤ ((Finset.range L) ×ˢ (Finset.range L)).card := Finset.card_filter_le _ _
          _ = L * L := by rw [Finset.card_product, Finset.card_range]
      have hpos : 0 < (undisc L st.discovered).card := Finset.card_pos.mpr ⟨_, hmem⟩
      unfold swMeasure
      dsimp only
      rw [undisc_upd2, Finset.card_erase_of_mem hmem]
      simp only [List.length_singleton]
      omega

/-- With fuel `L*L` per cluster, the traversal deque is always fully
drained: the fuel-indexed `bfs` performs exactly the source's
`while (!deq.empty())` loop, never cutting a traversal short. -/
theorem SW_run_deque_empty (E : ℚ → ℚ) (J : Int) (T : ℚ)
    (bufN bufE bufFlip : Nat → ℚ) (L : Nat) (lat : Lattice) (hL : 1 ≤ L) :
    (SW.run E J T bufN bufE bufFlip L lat).deq = [] := by
  suffices h : ∀ (l : List Nat) (bn be : Nat → Nat → Bool),
      (∀ k ∈ l, k < L * L) → ∀ st : SWState, st.deq = [] →
        (l.foldl (swScanStep bn be bufFlip L) st).deq = [] by
    exact h (List.range (L * L)) _ _ (fun k hk => List.mem_range.mp hk) _ rfl
  intro l
  induction l with
  | nil => intro bn be _ st hst; exact hst
  | cons a t ih =>
    intro bn be hmem st hst
    rw [List.foldl_cons]
    exact ih bn be (fun k hk => hmem k (List.mem_cons_of_mem a hk)) _
      (swScanStep_deq_drained bn be bufFlip L st a hL
        (hmem a (List.mem_cons_self a t)) hst)

/-! ### Claim theorems -/

/-- C1: in `Metropolis::run`, the `i`-th proposal negates the spin at the
`i`-th drawn coordinate pair `(fi, fj)` exactly when
`dE ≤ 0 ∨ u i < exp_values[dE + 8|J|]` with `dE = J * get_dE(lattice, fi, fj)`,
and leaves every other site unchanged; `run` is the fold of these proposals
over `i ∈ [0, n)`. -/
theorem metropolis_proposal_effect (J : Int) (gdE : Lattice → Nat → Nat → Int)
    (table : List ℚ) (idx : Nat → Nat × Nat) (u : Nat → ℚ) (lat : Lattice)
    (i n : Nat) (hfi : (idx i).1 < lat.length)
    (hfj : (idx i).2 < (lat.getD (idx i).1 []).length) :
    Metropolis.run J gdE table idx u n lat
        = (List.range n).foldl (metStep J gdE table idx u) lat ∧
    ∀ a b,
      latGet (metStep J gdE table idx u lat i) a b
        = if (a, b) = ((idx i).1, (idx i).2)
              ∧ (J * gdE lat (idx i).1 (idx i).2 ≤ 0
                 ∨ u i < table.getD (J * gdE lat (idx i).1 (idx i).2
                     + 8 * ((J.natAbs : Int))).toNat 0)
          then -(latGet lat a b)
          else latGet lat a b := by
  refine ⟨rfl, fun a b => ?_⟩
  unfold metStep
  rw [exp_buffer_offset_natAbs]
  by_cases hc : J * gdE lat (idx i).1 (idx i).2 ≤ 0
      ∨ u i < table.getD (J * gdE lat (idx i).1 (idx i).2
          + 8 * ((J.natAbs : Int))).toNat 0
  · rw [if_pos hc]
    by_cases hab : (a, b) = ((idx i).1, (idx i).2)
    · rw [if_pos ⟨hab, hc⟩]
      rw [Prod.ext_iff] at hab
      obtain ⟨ha, hb⟩ := hab
      dsimp only at ha hb
      subst ha
      subst hb
      exact latGet_flipAt_self lat _ _ hfi hfj
    · rw [if_neg (fun hk => hab hk.1)]
      refine latGet_flipAt_of_ne lat _ _ a b (fun hk => hab ?_)
      rw [hk.1, hk.2]
  · rw [if_neg hc, if_neg (fun hk => hc hk.2)]

/-- C1 witness: a concrete proposal on a 2×2 lattice. -/
theorem metropolis_proposal_effect_witness :
    ((fun _ : Nat => ((0 : Nat), (1 : Nat))) 0).1 < ([[1, -1], [-1, 1]] : Lattice).length ∧
    (Metropolis.run 1 (fun _ _ _ => -2) [1] (fun _ => (0, 1)) (fun _ => 1 / 2) 4
          [[1, -1], [-1, 1]]
        = (List.range 4).foldl
            (metStep 1 (fun _ _ _ => -2) [1] (fun _ => (0, 1)) (fun _ => 1 / 2))
            [[1, -1], [-1, 1]] ∧
      ∀ a b,
        latGet (metStep 1 (fun _ _ _ => -2) [1] (fun _ => (0, 1)) (fun _ => 1 / 2)
            [[1, -1], [-1, 1]] 0) a b
          = if (a, b) = ((0 : Nat), (1 : Nat))
                ∧ ((1 : Int) * (-2) ≤ 0
                   ∨ (1 / 2 : ℚ) < [(1 : ℚ)].getD ((1 : Int) * (-2)
                       + 8 * (((1 : Int).natAbs : Int))).toNat 0)
            then -(latGet [[1, -1], [-1, 1]] a b)
            else latGet [[1, -1], [-1, 1]] a b) :=
  ⟨by decide,
    metropolis_proposal_effect 1 (fun _ _ _ => -2) [1] (fun _ => (0, 1))
      (fun _ => 1 / 2) [[1, -1], [-1, 1]] 0 4 (by decide) (by decide)⟩

/-- C2: the job dispatch in `run_job` does not hand the selected algorithm
through -- with the SW algorithm selected, the measurement iterations are
instantiated with the Metropolis engine in both image modes. -/
theorem run_job_SW_uses_metropolis :
    (run_job_select Algorithm.SW ImageOrMovie.Movie).1 = Engine.Metropolis ∧
    (run_job_select Algorithm.SW ImageOrMovie.Intervals).1 = Engine.Metropolis ∧
    selected_engine Algorithm.SW = Engine.SW ∧
    Engine.Metropolis ≠ Engine.SW := by
  decide

/-- C4 counterexample: at `J = -1` the table is empty, not of the claimed
length `16·|J| + 1 = 17`. -/
theorem get_cached_exp_values_neg_J_cex :
    (get_cached_exp_values (fun _ => (0 : ℚ)) (-1) 1).length
      ≠ 16 * ((-1 : Int).natAbs) + 1 := by
  decide

/-- C4 (amended to `J ≥ 0`): for `J ≥ 0` and `T > 0` the table has length
`16|J| + 1` and its entry at index `dE + 8|J|` is `exp(-dE / T)` for every
realizable delta `dE` (multiple of 4 in `[-8J, 8J]`). -/
theorem get_cached_exp_values_spec (E : ℚ → ℚ) (J : Int) (T : ℚ)
    (hJ : 0 ≤ J) (hT : 0 < T) :
    (get_cached_exp_values E J T).length = 16 * J.natAbs + 1 ∧
    ∀ d : Int, 4 ∣ d → -8 * J ≤ d → d ≤ 8 * J →
      (get_cached_exp_values E J T).getD (d + 8 * (J.natAbs : Int)).toNat 0
        = E ((-d : Int) / T) := by
  have hoff : get_exp_buffer_offset J = 8 * (J.natAbs : Int) :=
    exp_buffer_offset_natAbs J
  constructor
  · simp only [get_cached_exp_values, List.length_map, List.length_range]
    omega
  · intro d _ hd1 hd2
    have hidx : ((d + 8 * (J.natAbs : Int)).toNat : Int) = d + 8 * (J.natAbs : Int) := by
      omega
    have hlt : (d + 8 * (J.natAbs : Int)).toNat < (8 * J - -8 * J + 1).toNat := by
      omega
    simp only [get_cached_exp_values, hoff]
    rw [List.getD_eq_getElem?_getD, List.getElem?_map, List.getElem?_range hlt,
      Option.map_some', Option.getD_some]
    congr 1
    have : -(((d + 8 * (J.natAbs : Int)).toNat : Int) - 8 * (J.natAbs : Int)) = -d := by
      omega
    rw [this]

/-- C4 witness: `J = 1`, `T = 1`, `dE = -4`, with the identity standing in
for `exp`. -/
theorem get_cached_exp_values_spec_witness :
    (0 : Int) ≤ 1 ∧ (0 : ℚ) < 1 ∧
    ((get_cached_exp_values (fun x => x) 1 1).length = 16 * (1 : Int).natAbs + 1 ∧
      ∀ d : Int, 4 ∣ d → -8 * 1 ≤ d → d ≤ 8 * 1 →
        (get_cached_exp_values (fun x => x) 1 1).getD
            (d + 8 * (((1 : Int).natAbs : Int))).toNat 0
          = (fun x => x) ((-d : Int) / (1 : ℚ))) :=
  ⟨le_of_lt Int.zero_lt_one, by norm_num,
    get_cached_exp_values_spec (fun x => x) 1 1 (by norm_num) (by norm_num)⟩

/-- C3: one call to `SW::run` adds every one of the L² sites to some cluster
exactly once (the ghost discovery count of every in-range site is 1 at the
end), and negates each site at most once, for every lattice and every
content of the three random buffers. -/
theorem SW_discovers_each_site_once (E : ℚ → ℚ) (J : Int) (T : ℚ)
    (bufN bufE bufFlip : Nat → ℚ) (L : Nat) (lat : Lattice) (hL : 1 ≤ L)
    (i j : Nat) (hi : i < L) (hj : j < L) :
    (SW.run E J T bufN bufE bufFlip L lat).discovered i j = true ∧
    (SW.run E J T bufN bufE bufFlip L lat).discCount i j = 1 ∧
    (SW.run E J T bufN bufE bufFlip L lat).flips i j ≤ 1 := by
  have hL0 : 0 < L := hL
  have hinit : InvCount (⟨lat, fun _ _ => false, [], fun _ _ => 0, fun _ _ => 0⟩ : SWState)
      ∧ InvFlips ⟨lat, fun _ _ => false, [], fun _ _ => 0, fun _ _ => 0⟩ := by
    constructor
    · intro a b
      simp
    · intro a b
      simp
  have hfold :
      InvCount (SW.run E J T bufN bufE bufFlip L lat)
        ∧ InvFlips (SW.run E J T bufN bufE bufFlip L lat) :=
    foldl_preserve (fun st => InvCount st ∧ InvFlips st) _
      (fun st k hp => swScanStep_invs _ _ bufFlip L st k hp.1 hp.2)
      (List.range (L * L)) _ hinit
  have hk1 : (j + L * i) / L = i := by
    rw [Nat.add_mul_div_left j i hL0, Nat.div_eq_of_lt hj, Nat.zero_add]
  have hk2 : (j + L * i) % L = j := by
    rw [Nat.add_mul_mod_self_left, Nat.mod_eq_of_lt hj]
  have hkmem : (j + L * i) ∈ List.range (L * L) := by
    apply List.mem_range.mpr
    calc j + L * i < L + L * i := by omega
      _ = L * (i + 1) := by ring
      _ ≤ L * L := Nat.mul_le_mul_left L (by omega)
  have hdisc : (SW.run E J T bufN bufE bufFlip L lat).discovered
      ((j + L * i) / L) ((j + L * i) % L) = true :=
    swScan_fold_discovers _ _ bufFlip L (List.range (L * L)) _ (j + L * i) hkmem
  rw [hk1, hk2] at hdisc
  refine ⟨hdisc, ?_, ?_⟩
  · have hc := hfold.1 i j
    rw [hdisc] at hc
    simpa using hc
  · have hf := hfold.2 i j
    rw [hdisc] at hf
    simp at hf
    omega

/-- C3 witness: a concrete 2×2 run. -/
theorem SW_discovers_each_site_once_witness :
    ((1 : Nat) ≤ 2 ∧ (0 : Nat) < 2 ∧ (1 : Nat) < 2) ∧
    ((SW.run (fun _ => 0) 1 1 (fun _ => 1 / 2) (fun _ => 1 / 2) (fun _ => 1 / 2) 2
        [[1, 1], [1, 1]]).discovered 0 1 = true ∧
      (SW.run (fun _ => 0) 1 1 (fun _ => 1 / 2) (fun _ => 1 / 2) (fun _ => 1 / 2) 2
        [[1, 1], [1, 1]]).discCount 0 1 = 1 ∧
      (SW.run (fun _ => 0) 1 1 (fun _ => 1 / 2) (fun _ => 1 / 2) (fun _ => 1 / 2) 2
        [[1, 1], [1, 1]]).flips 0 1 ≤ 1) :=
  ⟨⟨by decide, by decide, by decide⟩,
    SW_discovers_each_site_once (fun _ => 0) 1 1 (fun _ => 1 / 2) (fun _ => 1 / 2)
      (fun _ => 1 / 2) 2 [[1, 1], [1, 1]] (by decide) 0 1 (by decide) (by decide)⟩

/-- C5: during `SW::run` traversal, the south neighbor is examined through
the north-bond flag of `(x, (y-1+L)%L)` and the west neighbor through the
east-bond flag of `((x-1+L)%L, y)`; consequently the admission relation
between adjacent equal-spin sites is symmetric under periodic indexing. -/
theorem SW_bond_consultation_symmetric (lat : Lattice) (bn be : Nat → Nat → Bool)
    (L : Nat) (s t : Nat × Nat) (hs1 : s.1 < L) (hs2 : s.2 < L)
    (ht1 : t.1 < L) (ht2 : t.2 < L) :
    (∀ x y : Nat, consultedBond bn be L (x, y) Dir.south = bn x ((y + L - 1) % L)) ∧
    (∀ x y : Nat, consultedBond bn be L (x, y) Dir.west = be ((x + L - 1) % L) y) ∧
    wouldAdmit lat bn be L s t = wouldAdmit lat bn be L t s := by
  refine ⟨fun x y => rfl, fun x y => rfl, ?_⟩
  cases hx : wouldAdmit lat bn be L s t
  · cases hy : wouldAdmit lat bn be L t s
    · rfl
    · have hz := wouldAdmit_imp lat bn be L t s ht1 ht2 hy
      rw [hx] at hz
      exact hz
  · exact (wouldAdmit_imp lat bn be L s t hs1 hs2 hx).symm

/-- C5 witness: a concrete pair of adjacent sites on a 2×2 lattice. -/
theorem SW_bond_consultation_symmetric_witness :
    ((0 : Nat) < 2 ∧ (0 : Nat) < 2 ∧ (0 : Nat) < 2 ∧ (1 : Nat) < 2) ∧
    ((∀ x y : Nat,
        consultedBond (fun a _ => decide (a = 0)) (fun _ _ => true) 2 (x, y) Dir.south
          = (fun a _ => decide (a = 0)) x ((y + 2 - 1) % 2)) ∧
      (∀ x y : Nat,
        consultedBond (fun a _ => decide (a = 0)) (fun _ _ => true) 2 (x, y) Dir.west
          = (fun _ _ => true) ((x + 2 - 1) % 2) y) ∧
      wouldAdmit [[1, 1], [1, -1]] (fun a _ => decide (a = 0)) (fun _ _ => true) 2
          (0, 0) (0, 1)
        = wouldAdmit [[1, 1], [1, -1]] (fun a _ => decide (a = 0)) (fun _ _ => true) 2
          (0, 1) (0, 0)) :=
  ⟨⟨by decide, by decide, by decide, by decide⟩,
    SW_bond_consultation_symmetric [[1, 1], [1, -1]] (fun a _ => decide (a = 0))
      (fun _ _ => true) 2 (0, 0) (0, 1) (by decide) (by decide) (by decide) (by decide)⟩

/-- C6: in `SW::run` the freeze probability is `1 - exp(-2J/T)`, and the
bond grids it fills and traverses set the north (resp. east) flag of the
site at row-major position `i*L + j` exactly when the corresponding buffer
value is strictly below the freeze probability. -/
theorem SW_freeze_and_bonds (E : ℚ → ℚ) (J : Int) (T : ℚ)
    (bufN bufE bufFlip : Nat → ℚ) (L : Nat) (lat : Lattice) (i j : Nat)
    (hi : i < L) (hj : j < L) :
    swFreezeProbability E J T = 1 - E (-2 * (J : ℚ) / T) ∧
    (fillBonds (swFreezeProbability E J T) bufN bufE L).bn i j
      = decide (bufN (i * L + j) < swFreezeProbability E J T) ∧
    (fillBonds (swFreezeProbability E J T) bufN bufE L).be i j
      = decide (bufE (i * L + j) < swFreezeProbability E J T) ∧
    SW.run E J T bufN bufE bufFlip L lat
      = swScan (fillBonds (swFreezeProbability E J T) bufN bufE L).bn
          (fillBonds (swFreezeProbability E J T) bufN bufE L).be bufFlip L lat := by
  refine ⟨rfl, ?_, ?_, rfl⟩
  · have hev := (fillBonds_eval (swFreezeProbability E J T) bufN bufE L L
      ⟨fun _ _ => false, fun _ _ => false, 0⟩ i j hj).1
    unfold fillBonds
    rw [hev, if_pos hi]
    simp
  · have hev := (fillBonds_eval (swFreezeProbability E J T) bufN bufE L L
      ⟨fun _ _ => false, fun _ _ => false, 0⟩ i j hj).2
    unfold fillBonds
    rw [hev, if_pos hi]
    simp

/-- C6 witness: a concrete 2×2 bond fill. -/
theorem SW_freeze_and_bonds_witness :
    ((1 : Nat) < 2 ∧ (0 : Nat) < 2) ∧
    (swFreezeProbability (fun _ => 1 / 3) 1 1 = 1 - (fun _ : ℚ => (1 : ℚ) / 3) (-2 * 1 / 1) ∧
      (fillBonds (swFreezeProbability (fun _ => 1 / 3) 1 1)
          (fun k => (k : ℚ) / 10) (fun _ => 1 / 4) 2).bn 1 0
        = decide ((fun k : Nat => (k : ℚ) / 10) (1 * 2 + 0)
            < swFreezeProbability (fun _ => 1 / 3) 1 1) ∧
      (fillBonds (swFreezeProbability (fun _ => 1 / 3) 1 1)
          (fun k => (k : ℚ) / 10) (fun _ => 1 / 4) 2).be 1 0
        = decide ((fun _ : Nat => (1 : ℚ) / 4) (1 * 2 + 0)
            < swFreezeProbability (fun _ => 1 / 3) 1 1) ∧
      SW.run (fun _ => 1 / 3) 1 1 (fun k => (k : ℚ) / 10) (fun _ => 1 / 4)
          (fun _ => 1 / 2) 2 [[1, 1], [1, 1]]
        = swScan (fillBonds (swFreezeProbability (fun _ => 1 / 3) 1 1)
              (fun k => (k : ℚ) / 10) (fun _ => 1 / 4) 2).bn
            (fillBonds (swFreezeProbability (fun _ => 1 / 3) 1 1)
              (fun k => (k : ℚ) / 10) (fun _ => 1 / 4) 2).be
            (fun _ => 1 / 2) 2 [[1, 1], [1, 1]]) :=
  ⟨⟨by decide, by decide⟩,
    SW_freeze_and_bonds (fun _ => 1 / 3) 1 1 (fun k => (k : ℚ) / 10)
      (fun _ => 1 / 4) (fun _ => 1 / 2) 2 [[1, 1], [1, 1]] 1 0 (by decide) (by decide)⟩

/-- C7: the reported specific heat and susceptibility are the second-moment
variances of the per-snapshot energies and magnetizations scaled by
`L²/T²` and `L²/T` respectively. -/
theorem get_physical_results_cv_chi (T : ℚ) (L : Nat)
    (ps : List PhysicalMeasurement) :
    (get_physical_results T L ps).cv
      = (((get_energies ps).map (fun x => x * x)).sum / ((ps.length : ℚ))
          - ((get_energies ps).sum / (ps.length : ℚ)) ^ 2) * (L : ℚ) ^ 2 / T ^ 2 ∧
    (get_physical_results T L ps).chi
      = (((get_mags ps).map (fun x => x * x)).sum / ((ps.length : ℚ))
          - ((get_mags ps).sum / (ps.length : ℚ)) ^ 2) * (L : ℚ) ^ 2 / T := by
  have hle : (get_energies ps).length = ps.length := List.length_map ..
  have hlm : (get_mags ps).length = ps.length := List.length_map ..
  constructor
  · simp only [get_physical_results, get_energy_variance, get_variance,
      get_mean_eq_sum_div, get_squared_mean_eq, hle]
    ring
  · simp only [get_physical_results, get_mag_variance, get_variance,
      get_mean_eq_sum_div, get_squared_mean_eq, hlm]
    ring

/-- C8: a single sample yields variance exactly 0. -/
theorem get_variance_singleton (v : ℚ) : get_variance [v] = 0 := by
  simp [get_variance, get_mean, get_squared_mean]

/-- C9: both engines preserve the lattice shape (L rows of L columns) and
keep every entry in `{-1, +1}`: they only negate entries in place. -/
theorem engines_preserve_lattice (L : Nat) (lat : Lattice) (J : Int)
    (gdE : Lattice → Nat → Nat → Int) (table : List ℚ) (idx : Nat → Nat × Nat)
    (u : Nat → ℚ) (n : Nat) (E : ℚ → ℚ) (T : ℚ) (bufN bufE bufFlip : Nat → ℚ)
    (h : WellFormed L lat) :
    WellFormed L (Metropolis.run J gdE table idx u n lat) ∧
    WellFormed L ((SW.run E J T bufN bufE bufFlip L lat).lat) := by
  constructor
  · exact foldl_preserve (WellFormed L) (metStep J gdE table idx u)
      (fun a b hp => WellFormed_metStep L J gdE table idx u a b hp)
      (List.range n) lat h
  · exact foldl_preserve (fun st : SWState => WellFormed L st.lat) _
      (fun st k hp => WellFormed_swScanStep L _ _ bufFlip st k hp)
      (List.range (L * L)) _ h

/-- C9 witness: both engines on a concrete 2×2 lattice. -/
theorem engines_preserve_lattice_witness :
    WellFormed 2 [[1, -1], [-1, 1]] ∧
    (WellFormed 2 (Metropolis.run 1 (fun _ _ _ => 0) [1]
        (fun k => (k % 2, k / 2)) (fun _ => 3 / 4) 4 [[1, -1], [-1, 1]]) ∧
      WellFormed 2 ((SW.run (fun _ => 0) 1 1 (fun _ => 1 / 2) (fun _ => 1 / 2)
        (fun _ => 1 / 2) 2 [[1, -1], [-1, 1]]).lat)) :=
  ⟨by decide,
    engines_preserve_lattice 2 [[1, -1], [-1, 1]] 1 (fun _ _ _ => 0) [1]
      (fun k => (k % 2, k / 2)) (fun _ => 3 / 4) 4 (fun _ => 0) 1 (fun _ => 1 / 2)
      (fun _ => 1 / 2) (fun _ => 1 / 2) (by decide)⟩

/-- C10: with `J ≥ 1` and the local delta in `[-8, 8]`, the table index
`dE + buffer_offset` used by `Metropolis::run` is nonnegative and within
the bounds of the table built by `get_cached_exp_values`. -/
theorem metropolis_table_index_bounds (E : ℚ → ℚ) (J : Int) (T : ℚ) (g : Int)
    (hJ : 1 ≤ J) (hg1 : -8 ≤ g) (hg2 : g ≤ 8) :
    0 ≤ J * g + get_exp_buffer_offset J ∧
    (J * g + get_exp_buffer_offset J).toNat < (get_cached_exp_values E J T).length := by
  have hoff : get_exp_buffer_offset J = 8 * J := by
    unfold get_exp_buffer_offset
    split <;> omega
  have h1 : -(8 * J) ≤ J * g := by nlinarith
  have h2 : J * g ≤ 8 * J := by nlinarith
  have hlen : (get_cached_exp_values E J T).length = (8 * J - -8 * J + 1).toNat := by
    simp [get_cached_exp_values]
  rw [hoff, hlen]
  omega

/-- C10 witness: `J = 1`, `g = 5`. -/
theorem metropolis_table_index_bounds_witness :
    (1 : Int) ≤ 1 ∧ (-8 : Int) ≤ 5 ∧ (5 : Int) ≤ 8 ∧
    (0 ≤ 1 * 5 + get_exp_buffer_offset 1 ∧
      ((1 : Int) * 5 + get_exp_buffer_offset 1).toNat
        < (get_cached_exp_values (fun x => x) 1 2).length) :=
  ⟨le_refl 1, by norm_num, by norm_num,
    metropolis_table_index_bounds (fun x => x) 1 2 5 (le_refl 1) (by norm_num)
      (by norm_num)⟩

end Magneto
